import Mathlib

/-!
Verification development for `scripts/agent_template/create.py`
(`AgentTemplateProcessor`): a shallow embedding of the frontmatter parser,
the variable resolver, the template renderer and the batch orchestrator,
together with theorems settling the specification claims.

Conventions of the embedding:
* Python strings are Lean `String`s; character-level work is done on `.data`.
* YAML values (`yaml.safe_load` results) are the inductive `YVal`; Python
  dictionaries are ordered association lists (`List (String × YVal)`), with
  `dictInsert` modelling `d[k] = v` (CPython dicts keep insertion order and
  an overwrite keeps the key's original position).
* `yaml.safe_load` itself is an oracle parameter `safeLoad`; the claims are
  about what `create.py` does with its result, not about PyYAML's grammar.
* Exceptions are explicit: fallible steps return `Except String _` and
  `process_template`'s possible outcomes are the inductive `ProcOutcome`.
-/

/-- Decidable equality on `Except`, used to evaluate concrete runs of the
fallible operations below. -/
instance {ε α : Type} [DecidableEq ε] [DecidableEq α] : DecidableEq (Except ε α) := fun
  | .ok a, .ok b => decidable_of_iff (a = b) (by simp)
  | .ok _, .error _ => isFalse (by simp)
  | .error _, .ok _ => isFalse (by simp)
  | .error e, .error f => decidable_of_iff (e = f) (by simp)

/-- One Python whitespace character as matched by `\s` in `re` (ASCII range:
space, tab, newline, carriage return, vertical tab, form feed). -/
def isPySpace (c : Char) : Bool :=
  c = ' ' || c = '\t' || c = '\n' || c = '\r' || c = '\x0b' || c = '\x0c'

/-- A YAML value as produced by `yaml.safe_load`: `None`, booleans, integers,
strings, sequences and (insertion-ordered) mappings with string keys. -/
inductive YVal where
  | null : YVal
  | bool (b : Bool) : YVal
  | int (n : Int) : YVal
  | str (s : String) : YVal
  | seq (xs : List YVal) : YVal
  | map (m : List (String × YVal)) : YVal

/-- Python truthiness (`bool(v)`) of a `YVal`: `None`, `False`, `0`, `""`,
`[]` and the empty dict are falsy, everything else is truthy.  This is what
`frontmatter or {}`, `if not output_info:` and `if not output_filename:`
evaluate in `create.py`. -/
def YVal.truthy : YVal → Bool
  | .null => false
  | .bool b => b
  | .int n => n != 0
  | .str s => s != ""
  | .seq xs => !xs.isEmpty
  | .map m => !m.isEmpty

/-- Model of Python `repr` escaping for characters inside a quoted string
(used only for values nested in sequences/mappings; the claims never
depend on it). -/
def pyReprCharEsc (c : Char) : String :=
  if c = '\\' then "\\\\"
  else if c = '\'' then "\\'"
  else if c = '\n' then "\\n"
  else if c = '\r' then "\\r"
  else if c = '\t' then "\\t"
  else String.singleton c

mutual

/-- Model of Python `str(value)` as applied by `replace_variables`
(`create.py` line 67): `None ↦ "None"`, `True/False ↦ "True"/"False"`,
numbers print as themselves, a string is itself, and containers print the
way CPython prints lists/dicts (elements via `repr`). -/
def pyStr : YVal → String
  | .null => "None"
  | .bool true => "True"
  | .bool false => "False"
  | .int n => toString n
  | .str s => s
  | .seq xs => "[" ++ pyStrSeq xs ++ "]"
  | .map m => "\x7b" ++ pyStrMap m ++ "\x7d"

/-- `repr(value)` model: like `pyStr` except strings are quoted. -/
def pyRepr : YVal → String
  | .null => "None"
  | .bool true => "True"
  | .bool false => "False"
  | .int n => toString n
  | .str s => "'" ++ String.join (s.data.map pyReprCharEsc) ++ "'"
  | .seq xs => "[" ++ pyStrSeq xs ++ "]"
  | .map m => "\x7b" ++ pyStrMap m ++ "\x7d"

/-- Comma-separated `repr`s of sequence elements. -/
def pyStrSeq : List YVal → String
  | [] => ""
  | [x] => pyRepr x
  | x :: y :: rest => pyRepr x ++ ", " ++ pyStrSeq (y :: rest)

/-- Comma-separated `'key': repr(value)` entries of a dict. -/
def pyStrMap : List (String × YVal) → String
  | [] => ""
  | [p] => "'" ++ p.1 ++ "': " ++ pyRepr p.2
  | p :: q :: rest => "'" ++ p.1 ++ "': " ++ pyRepr p.2 ++ ", " ++ pyStrMap (q :: rest)

end

/-- Python dict lookup `d.get(k)` on an insertion-ordered association list:
the first entry with the key, if any. -/
def dictGet (d : List (String × YVal)) (k : String) : Option YVal :=
  (d.find? fun p => p.1 == k).map Prod.snd

/-- Python dict assignment `d[k] = v`: overwrite in place if the key exists
(keeping its position), otherwise append at the end. -/
def dictInsert (d : List (String × YVal)) (k : String) (v : YVal) :
    List (String × YVal) :=
  if d.any fun p => p.1 == k then
    d.map fun p => if p.1 == k then (k, v) else p
  else d ++ [(k, v)]

/-! ## The frontmatter regular expression

`parse_frontmatter` (`create.py` lines 36-37) runs

  `re.match(r'^---\s*\n(.*?)\n---\s*\n(.*)$', content, re.DOTALL)`.

We embed the backtracking behaviour of exactly this pattern on `List Char`:
after the literal `---`, greedy `\s*` followed by literal `\n` produces the
candidate remainders `wsNlCands` (longest whitespace run ending in a newline
first); the lazy group `(.*?)` is the shortest-first scan `scanClose`; after
the literal `\n---` the second `\s*\n` is again greedy, and `(.*)$` under
`re.DOTALL` always succeeds and captures the whole remainder, so the first
successful candidate determines the two groups. -/

/-- Remainders after matching `\s*\n` at the head of `cs`, in the order the
greedy quantifier tries them (longest whitespace consumed first).  Each
candidate consumes a nonempty prefix of whitespace whose last character is a
newline. -/
def wsNlCands : List Char → List (List Char)
  | [] => []
  | c :: cs =>
    if isPySpace c then
      if c = '\n' then wsNlCands cs ++ [cs] else wsNlCands cs
    else []

/-- Attempt to match `\n---\s*\n` at the head of `r`; on success return the
remainder after the greedy `\s*\n`, which `(.*)$` then captures as group 2. -/
def tryClose (r : List Char) : Option (List Char) :=
  match r with
  | '\n' :: '-' :: '-' :: '-' :: t => (wsNlCands t).head?
  | _ => none

/-- The lazy scan of `(.*?)`: try the empty group first and extend one
character at a time until `\n---\s*\n` matches; returns (group 1, group 2). -/
def scanClose : List Char → Option (List Char × List Char)
  | [] => none
  | c :: rest =>
    match tryClose (c :: rest) with
    | some g2 => some ([], g2)
    | none => (scanClose rest).map fun p => (c :: p.1, p.2)

/-- Run `scanClose` on each candidate remainder in order; the first success
wins (later parts of the pattern cannot fail, so `re` commits to it). -/
def firstClose : List (List Char) → Option (List Char × List Char)
  | [] => none
  | r :: rs =>
    match scanClose r with
    | some p => some p
    | none => firstClose rs

/-- The whole anchored match: literal `---` at the start, then `\s*\n`
candidates, then the lazy scan.  `some (g1, g2)` are the two captured groups
(frontmatter text and body), `none` means `re.match` returned no match. -/
def matchFrontmatter (cs : List Char) : Option (List Char × List Char) :=
  match cs with
  | '-' :: '-' :: '-' :: t => firstClose (wsNlCands t)
  | _ => none

/-- Result of `parse_frontmatter`: the frontmatter value, the body string,
and whether the YAML-parse-error warning was printed. -/
structure FMResult where
  header : YVal
  body : String
  warned : Bool

/-- `parse_frontmatter` (`create.py` lines 25-51), parameterised by the
`yaml.safe_load` oracle: no regex match returns `({}, content)`; a YAML
error logs a warning and returns `({}, content)`; otherwise it returns
`frontmatter or {}` (the parsed value if truthy, else the empty dict)
together with group 2 as the body. -/
def parse_frontmatter (safeLoad : String → Except String YVal)
    (content : String) : FMResult :=
  match matchFrontmatter content.data with
  | none => ⟨.map [], content, false⟩
  | some (g1, g2) =>
    match safeLoad (String.mk g1) with
    | .ok fm => ⟨if fm.truthy then fm else .map [], String.mk g2, false⟩
    | .error _ => ⟨.map [], content, true⟩

/-! ## Variable substitution

`replace_variables` (`create.py` lines 53-68) iterates the dictionary in
insertion order and runs, for each key,

  `result = re.sub(r'\{\{' + re.escape(key) + r'\}\}', str(value), result)`.

`re.escape` makes the pattern the literal text of `{{key}}`, so matching is
literal leftmost non-overlapping replacement (`substKey`).  The replacement
string `str(value)` is NOT inserted verbatim: `re.sub` processes it as a
replacement template (`expandTemplate`): `\\`, `\n`, `\t`, `\r`, `\v`,
`\f`, `\a`, `\b` and octal escapes are interpreted, `\g<0>` inserts the
whole match, group references are errors (the pattern has no groups), an
unknown escape of an ASCII letter or a trailing backslash is an error, and
a backslash before any other character is kept verbatim.  The template is
parsed before matching, so these errors occur even when the pattern never
matches. -/

/-- Octal digit test for replacement-template escapes. -/
def isOctDigit (c : Char) : Bool := '0' ≤ c && c ≤ '7'

/-- Value of an octal digit. -/
def octVal (c : Char) : Nat := c.toNat - '0'.toNat

/-- Fuelled worker for `expandTemplate`.  The fuel only bounds the
recursion (each step consumes at least one character, so `l.length` fuel
always suffices and the `0, cs` default is unreachable from
`expandTemplate`). -/
def expandTemplateF (pat : List Char) : Nat → List Char → Except String (List Char)
  | _, [] => .ok []
  | 0, cs => .ok cs
  | n + 1, c :: cs =>
    if c = '\\' then
      match cs with
      | [] => .error "bad escape (end of pattern)"
      | '\\' :: cs2 => (fun r => '\\' :: r) <$> expandTemplateF pat n cs2
      | 'n' :: cs2 => (fun r => '\n' :: r) <$> expandTemplateF pat n cs2
      | 't' :: cs2 => (fun r => '\t' :: r) <$> expandTemplateF pat n cs2
      | 'r' :: cs2 => (fun r => '\r' :: r) <$> expandTemplateF pat n cs2
      | 'v' :: cs2 => (fun r => '\x0b' :: r) <$> expandTemplateF pat n cs2
      | 'f' :: cs2 => (fun r => '\x0c' :: r) <$> expandTemplateF pat n cs2
      | 'a' :: cs2 => (fun r => '\x07' :: r) <$> expandTemplateF pat n cs2
      | 'b' :: cs2 => (fun r => '\x08' :: r) <$> expandTemplateF pat n cs2
      | 'g' :: '<' :: '0' :: '>' :: cs2 =>
        (fun r => pat ++ r) <$> expandTemplateF pat n cs2
      | 'g' :: '<' :: _ => .error "invalid group reference"
      | 'g' :: _ => .error "missing <"
      | '0' :: cs2 =>
        -- `\0` plus up to two more octal digits is an octal escape
        (match cs2 with
         | d1 :: cs3 =>
           if isOctDigit d1 then
             match cs3 with
             | d2 :: cs4 =>
               if isOctDigit d2 then
                 (fun r => Char.ofNat (8 * octVal d1 + octVal d2) :: r) <$>
                   expandTemplateF pat n cs4
               else (fun r => Char.ofNat (octVal d1) :: r) <$> expandTemplateF pat n cs3
             | [] => .ok [Char.ofNat (octVal d1)]
           else (fun r => Char.ofNat 0 :: r) <$> expandTemplateF pat n cs2
         | [] => .ok [Char.ofNat 0])
      | e :: cs2 =>
        if isOctDigit e then
          -- exactly three octal digits form an octal escape, otherwise this
          -- is a (necessarily invalid) group reference
          match cs2 with
          | d1 :: d2 :: cs3 =>
            if isOctDigit d1 && isOctDigit d2 then
              if 255 < 64 * octVal e + 8 * octVal d1 + octVal d2 then
                .error "octal escape value outside of range 0-0o377"
              else
                (fun r => Char.ofNat (64 * octVal e + 8 * octVal d1 + octVal d2) :: r) <$>
                  expandTemplateF pat n cs3
            else .error "invalid group reference"
          | _ => .error "invalid group reference"
        else if e.isDigit then .error "invalid group reference"
        else if e.isAlpha then .error "bad escape"
        else (fun r => '\\' :: e :: r) <$> expandTemplateF pat n cs2
    else (fun r => c :: r) <$> expandTemplateF pat n cs

/-- CPython's parsing of a `re.sub` replacement-template string (for a
pattern with no capturing groups, whose every match is the literal `pat`). -/
def expandTemplate (pat l : List Char) : Except String (List Char) :=
  expandTemplateF pat l.length l

/-- The literal pattern text `{{key}}` produced by
`r'\{\{' + re.escape(key) + r'\}\}'`. -/
def varPattern (k : String) : List Char := '{' :: '{' :: k.data ++ ['}', '}']

/-- Fuelled worker for `substKey`: leftmost non-overlapping replacement of
the literal `pat` by `rep`.  The fuel only bounds the recursion (each step
consumes at least one character, so `cs.length` fuel always suffices);
`pat` is never empty here, since `varPattern` has at least four characters. -/
def substKeyF (pat rep : List Char) : Nat → List Char → List Char
  | _, [] => []
  | 0, cs => cs
  | n + 1, c :: rest =>
    if pat.isPrefixOf (c :: rest) then
      rep ++ substKeyF pat rep n ((c :: rest).drop pat.length)
    else c :: substKeyF pat rep n rest

/-- Leftmost non-overlapping replacement of every occurrence of the literal
`pat` by `rep` — the behaviour of `re.sub` once the pattern is literal and
the template is expanded. -/
def substKey (pat rep cs : List Char) : List Char :=
  substKeyF pat rep cs.length cs

/-- One iteration of the loop in `replace_variables` (`create.py` lines
64-67): parse the replacement template for `str(value)` and substitute
every occurrence of `{{key}}` in the result of the previous step.  A
template error is the `re.error` exception that `re.sub` call raises. -/
def replStep (acc : Except String String) (kv : String × YVal) :
    Except String String :=
  match acc with
  | .error e => .error e
  | .ok r =>
    match expandTemplate (varPattern kv.1) (pyStr kv.2).data with
    | .error e => .error e
    | .ok rep => .ok (String.mk (substKey (varPattern kv.1) rep r.data))

/-- The whole loop of `replace_variables`. -/
def replace_variables (content : String) (vars : List (String × YVal)) :
    Except String String :=
  vars.foldl replStep (.ok content)

/-! ## Variable resolution

`process_template` (`create.py` lines 97-109) builds the substitution
mapping: first every `metadata` entry, then every `output` entry except
`file_name`, output values overwriting metadata values for the same key. -/

/-- One step of the metadata loop: `variables[key] = value`. -/
def metaStep (acc : List (String × YVal)) (p : String × YVal) :
    List (String × YVal) :=
  dictInsert acc p.1 p.2

/-- One step of the output loop: `if key != 'file_name': variables[key] = value`. -/
def outStep (acc : List (String × YVal)) (p : String × YVal) :
    List (String × YVal) :=
  if p.1 == "file_name" then acc else dictInsert acc p.1 p.2

/-- The resolved variable mapping (`create.py` lines 97-109). -/
def collectVariables (metadata output_info : List (String × YVal)) :
    List (String × YVal) :=
  output_info.foldl outStep (metadata.foldl metaStep [])

/-! ## Serialisation of the header

`process_template` (line 119) re-serialises the parsed frontmatter with
`yaml.dump(frontmatter, allow_unicode=True, sort_keys=False)`.  We model
the dumper's shape, not PyYAML's full scalar-quoting rules: one
`key: value` line per top-level entry, keys emitted in the dictionary's
insertion order (that is what `sort_keys=False` guarantees), nested
containers rendered inline.  The claims depend only on the `---` framing
and on key order, which this model shares with PyYAML. -/

mutual

/-- Rendering of one value in the modelled dump (no newlines for scalars). -/
def yamlDumpValue : YVal → String
  | .null => "null"
  | .bool true => "true"
  | .bool false => "false"
  | .int n => toString n
  | .str s => s
  | .seq xs => "[" ++ yamlDumpSeq xs ++ "]"
  | .map m => "\x7b" ++ yamlDumpMapFlow m ++ "\x7d"

/-- Comma-separated sequence elements. -/
def yamlDumpSeq : List YVal → String
  | [] => ""
  | [x] => yamlDumpValue x
  | x :: y :: rest => yamlDumpValue x ++ ", " ++ yamlDumpSeq (y :: rest)

/-- Comma-separated `key: value` entries of a nested (inline) mapping. -/
def yamlDumpMapFlow : List (String × YVal) → String
  | [] => ""
  | [p] => p.1 ++ ": " ++ yamlDumpValue p.2
  | p :: q :: rest => p.1 ++ ": " ++ yamlDumpValue p.2 ++ ", " ++ yamlDumpMapFlow (q :: rest)

end

/-- The `key: value` lines of the dumped mapping, one per entry, in list
(= insertion) order. -/
def yamlEntries : List (String × YVal) → String
  | [] => ""
  | p :: rest => p.1 ++ ": " ++ yamlDumpValue p.2 ++ "\n" ++ yamlEntries rest

/-- Model of `yaml.dump(m, allow_unicode=True, sort_keys=False)` for a
dictionary: the empty dict dumps as `{}` on its own line, a nonempty one
as its entries in insertion order. -/
def yamlDump (m : List (String × YVal)) : String :=
  if m.isEmpty then "\x7b\x7d\n" else yamlEntries m

/-- Split a character list at every occurrence of `sep` (used to read the
dumped header back line by line when stating the key-order property). -/
def splitChar (sep : Char) : List Char → List (List Char)
  | [] => [[]]
  | c :: cs =>
    if c = sep then [] :: splitChar sep cs
    else
      match splitChar sep cs with
      | s :: ss => (c :: s) :: ss
      | [] => [[c]]

/-- The key of one dumped line: everything before the first colon. -/
def keyOfLine (l : List Char) : List Char := l.takeWhile fun c => c != ':'

/-- The keys of a dumped header, read off its lines in order. -/
def keysOfDump (s : String) : List String :=
  ((splitChar '\n' s.data).dropLast).map fun l => String.mk (keyOfLine l)

/-! ## `process_template` and the batch orchestrator -/

/-- The observable outcome of `process_template` on one file (`create.py`
lines 70-122): skip with the missing-output warning (line 88), skip with
the missing-file_name warning (line 94), write a file, or raise an
exception (caught by `process_all`).  Skips return before any filesystem
effect: the `mkdir` and the write both happen after both checks. -/
inductive ProcOutcome where
  | skippedNoOutput : ProcOutcome
  | skippedNoFileName : ProcOutcome
  | wrote (path content : String) : ProcOutcome
  | raised (msg : String) : ProcOutcome
deriving DecidableEq

/-- `process_template` (`create.py` lines 70-122) for a file whose text is
`content`.  Mirrors the source's order of operations:
`parse_frontmatter`; `frontmatter.get('output', {})` (an `AttributeError`
when the parsed header is a truthy non-dict — `.get` only exists on
dicts); the `if not output_info` skip; `output_info.get('file_name')`
(again `AttributeError` on a truthy non-dict); the `if not output_filename`
skip; `frontmatter.get('metadata', {}).items()` (an `AttributeError` when
`metadata` is present but not a dict); variable collection; substitution
(whose `re.error` propagates); then `output_base_dir / output_filename`
(a `TypeError` when `file_name` is not a string) and the write.  The
path join is modelled as string concatenation with `/`. -/
def process_template (safeLoad : String → Except String YVal)
    (output_base : String) (content : String) : ProcOutcome :=
  let pr := parse_frontmatter safeLoad content
  match pr.header with
  | .map fm =>
    let output_info := (dictGet fm "output").getD (.map [])
    if output_info.truthy = false then .skippedNoOutput
    else
      match output_info with
      | .map oi =>
        match dictGet oi "file_name" with
        | none => .skippedNoFileName
        | some fv =>
          if fv.truthy = false then .skippedNoFileName
          else
            match (dictGet fm "metadata").getD (.map []) with
            | .map md =>
              match replace_variables pr.body (collectVariables md oi) with
              | .ok processed_body =>
                match fv with
                | .str output_filename =>
                  .wrote (output_base ++ "/" ++ output_filename)
                    ("---\n" ++ yamlDump fm ++ "---\n" ++ processed_body)
                | _ => .raised "TypeError: unsupported operand for path join"
              | .error e => .raised e
            | _ => .raised "AttributeError: metadata has no attribute items"
      | _ => .raised "AttributeError: output info has no attribute get"
  | _ => .raised "AttributeError: frontmatter has no attribute get"

/-- The per-file loop of `process_all` (`create.py` lines 134-138): each
file is processed in order; the `try/except` catches any exception and
records it (the `Error processing ...` log line), so a `raised` outcome is
a value in the result list and never stops the remaining files. -/
def processList (safeLoad : String → Except String YVal)
    (output_base : String) : List (String × String) → List (String × ProcOutcome)
  | [] => []
  | (p, c) :: rest =>
    (p, process_template safeLoad output_base c) :: processList safeLoad output_base rest

/-- Outcome of one batch run: the empty-directory early return
(`No template files found`, line 129) or the list of per-file outcomes. -/
inductive BatchOutcome where
  | noTemplates : BatchOutcome
  | ran (results : List (String × ProcOutcome)) : BatchOutcome
deriving DecidableEq

/-- `process_all` (`create.py` lines 124-138) on the listed template files,
each given as (path, file text). -/
def process_all (safeLoad : String → Except String YVal)
    (output_base : String) (files : List (String × String)) : BatchOutcome :=
  if files.isEmpty then .noTemplates
  else .ran (processList safeLoad output_base files)

/-! ## Concrete `yaml.safe_load` oracles used to exercise the pipeline -/

/-- Oracle that always reports a YAML parse error. -/
def slParseError : String → Except String YVal := fun _ => .error "parse error"

/-- Oracle that always parses to YAML `null` (empty/comment-only block). -/
def slNull : String → Except String YVal := fun _ => .ok .null

/-- Oracle that always parses to the plain (truthy, non-mapping) scalar
`hello`. -/
def slScalar : String → Except String YVal := fun _ => .ok (.str "hello")

/-- Oracle for the end-to-end example: a header declaring
`output: {file_name: a_out.md}` and `metadata: {name: Alice}`. -/
def slDoc : String → Except String YVal := fun _ =>
  .ok (.map [("output", .map [("file_name", .str "a_out.md")]),
             ("metadata", .map [("name", .str "Alice")])])

/-- Oracle for a header with no `output` mapping at all. -/
def slNoOut : String → Except String YVal := fun _ =>
  .ok (.map [("title", .str "x")])

/-- Oracle for a header whose `output` mapping lacks `file_name`. -/
def slNoFn : String → Except String YVal := fun _ =>
  .ok (.map [("output", .map [("author", .str "a")])])

/-- Oracle that yields a truthy non-mapping for the text `boom` and a good
header otherwise (to show one failing file not blocking its siblings). -/
def slMixed : String → Except String YVal := fun s =>
  if s = "boom" then .ok (.str "hello")
  else .ok (.map [("output", .map [("file_name", .str "ok.md")])])

/-! ## Specification-side notions used to state the claims -/

/-- `s` is a maximal-munch segment for `pat`: no occurrence of `pat` starts
inside `s` when `s` is followed by `pat`.  The segments of the canonical
decomposition `s₀ ++ pat ++ s₁ ++ pat ++ … ++ sₙ` of a text by leftmost
non-overlapping matching all satisfy this. -/
def LeftmostSeg (pat s : List Char) : Prop :=
  ∀ i < s.length, ¬ pat <+: ((s ++ pat).drop i)

instance (pat s : List Char) : Decidable (LeftmostSeg pat s) := by
  unfold LeftmostSeg; infer_instance

/-- Interleave the separator `sep` between the given segments (the body
`joinSep pat segs` contains exactly the occurrences of `pat` between
consecutive segments when each segment is a `LeftmostSeg`). -/
def joinSep (sep : List Char) : List (List Char) → List Char
  | [] => []
  | [s] => s
  | s :: t :: rest => s ++ sep ++ joinSep sep (t :: rest)

/-! # Theorems -/

/-- Claim C4: if the `---`-delimited header pattern is not found at the
very start of the document, `parse_frontmatter` returns an empty header
and the entire document unchanged as body (no warning); if the pattern
matches but the block is not valid YAML, it logs a warning (`warned`) and
returns an empty header together with the original full content
(delimiters included) as body. -/
theorem parse_frontmatter_error_handling
    (safeLoad : String → Except String YVal) (content : String) :
    (matchFrontmatter content.data = none →
      parse_frontmatter safeLoad content = ⟨.map [], content, false⟩)
    ∧ (∀ g1 g2 e, matchFrontmatter content.data = some (g1, g2) →
        safeLoad (String.mk g1) = .error e →
        parse_frontmatter safeLoad content = ⟨.map [], content, true⟩) := by
  refine ⟨fun h => ?_, fun g1 g2 e hm he => ?_⟩
  · simp [parse_frontmatter, h]
  · simp [parse_frontmatter, hm, he]

/-- Witness for C4 at concrete inputs: `no header` has no match; the
document `---\na: [\n---\nbody` matches with frontmatter text `a: [`,
and with a parse-error oracle the whole original text comes back as body
with the warning flag set. -/
theorem parse_frontmatter_error_handling_witness :
    (matchFrontmatter "no header".data = none ∧
      parse_frontmatter slParseError "no header" = ⟨.map [], "no header", false⟩)
    ∧ (matchFrontmatter "---\na: [\n---\nbody".data = some ("a: [".data, "body".data) ∧
      parse_frontmatter slParseError "---\na: [\n---\nbody"
        = ⟨.map [], "---\na: [\n---\nbody", true⟩) :=
  ⟨⟨by decide, (parse_frontmatter_error_handling slParseError "no header").1 (by decide)⟩,
   ⟨by decide, (parse_frontmatter_error_handling slParseError "---\na: [\n---\nbody").2
      "a: [".data "body".data "parse error" (by decide) rfl⟩⟩

/-- Claim C10: a delimited block whose YAML parse yields `null` (empty or
comment-only block) produces the empty mapping as header — the
`frontmatter or {}` coercion — never `null` itself, together with the
matched body and no warning. -/
theorem parse_frontmatter_null_header
    (safeLoad : String → Except String YVal) (content : String)
    (g1 g2 : List Char)
    (hm : matchFrontmatter content.data = some (g1, g2))
    (h0 : safeLoad (String.mk g1) = .ok .null) :
    parse_frontmatter safeLoad content = ⟨.map [], String.mk g2, false⟩ := by
  simp [parse_frontmatter, hm, h0, YVal.truthy]

/-- Witness for C10: the document `---\n\n---\nbody` matches with empty
frontmatter text, and a null-parsing oracle yields the empty mapping and
body `body`. -/
theorem parse_frontmatter_null_header_witness :
    matchFrontmatter "---\n\n---\nbody".data = some ([], "body".data) ∧
    parse_frontmatter slNull "---\n\n---\nbody" = ⟨.map [], "body", false⟩ :=
  ⟨by decide,
   parse_frontmatter_null_header slNull "---\n\n---\nbody" [] "body".data (by decide) rfl⟩

/-- Claim C8: a delimited block parsing to a truthy non-mapping YAML value
is returned as the header itself (the `or {}` coercion keeps it), the
subsequent `frontmatter.get('output', {})` in `process_template` raises an
`AttributeError`, and the failure surfaces through the orchestrator's
per-file error path (`raised` in the result list, not a missing-output
skip) while the remaining files are still processed. -/
theorem parse_frontmatter_non_mapping_header
    (safeLoad : String → Except String YVal) (content base : String)
    (g1 g2 : List Char) (v : YVal)
    (hm : matchFrontmatter content.data = some (g1, g2))
    (hv : safeLoad (String.mk g1) = .ok v)
    (ht : v.truthy = true)
    (hnm : ∀ m, v ≠ .map m) :
    (parse_frontmatter safeLoad content).header = v
    ∧ process_template safeLoad base content
        = .raised "AttributeError: frontmatter has no attribute get"
    ∧ ∀ p rest, processList safeLoad base ((p, content) :: rest)
        = (p, .raised "AttributeError: frontmatter has no attribute get")
            :: processList safeLoad base rest := by
  have hpr : parse_frontmatter safeLoad content = ⟨v, String.mk g2, false⟩ := by
    simp [parse_frontmatter, hm, hv, ht]
  have hraise : process_template safeLoad base content
      = .raised "AttributeError: frontmatter has no attribute get" := by
    unfold process_template
    rw [hpr]
    cases v with
    | map m => exact absurd rfl (hnm m)
    | null => rfl
    | bool b => rfl
    | int n => rfl
    | str s => rfl
    | seq xs => rfl
  refine ⟨by rw [hpr], hraise, fun p rest => ?_⟩
  simp [processList, hraise]

/-- Witness for C8: with the oracle `slMixed`, the file `---\nboom\n---\nB`
parses to the scalar header `hello`, `process_template` raises, and a
following well-formed file in the same batch is still written. -/
theorem parse_frontmatter_non_mapping_header_witness :
    (parse_frontmatter slMixed "---\nboom\n---\nB").header = .str "hello"
    ∧ process_template slMixed "out" "---\nboom\n---\nB"
        = .raised "AttributeError: frontmatter has no attribute get"
    ∧ processList slMixed "out"
        [("a.md", "---\nboom\n---\nB"), ("b.md", "---\nok: 1\n---\nHi")]
      = [("a.md", .raised "AttributeError: frontmatter has no attribute get"),
         ("b.md", .wrote "out/ok.md" "---\noutput: \x7bfile_name: ok.md\x7d\n---\nHi")] := by
  obtain ⟨h1, h2, h3⟩ :=
    parse_frontmatter_non_mapping_header slMixed "---\nboom\n---\nB" "out"
      "boom".data "B".data (.str "hello") (by decide) rfl rfl
      (fun m h => YVal.noConfusion h)
  refine ⟨h1, h2, ?_⟩
  rw [h3 "a.md" [("b.md", "---\nok: 1\n---\nHi")]]
  decide

/-- Claim C6: when the parsed header (a mapping) has no `output` entry,
`process_template` returns the missing-output warning skip; when `output`
is a mapping without a `file_name` entry, it returns one of the two
warning skips (missing output info if the mapping is empty and hence
falsy, missing file_name otherwise).  Either way no file is written (both
the `mkdir` and the write come after these checks), the outcome is a
value rather than an exception, and the remaining files of the batch are
still processed. -/
theorem process_template_skips_without_output
    (safeLoad : String → Except String YVal) (base content : String)
    (fm : List (String × YVal))
    (hh : (parse_frontmatter safeLoad content).header = .map fm) :
    (dictGet fm "output" = none →
      process_template safeLoad base content = .skippedNoOutput)
    ∧ (∀ oi, dictGet fm "output" = some (.map oi) →
        dictGet oi "file_name" = none →
        process_template safeLoad base content = .skippedNoOutput
        ∨ process_template safeLoad base content = .skippedNoFileName)
    ∧ (∀ p rest, processList safeLoad base ((p, content) :: rest)
        = (p, process_template safeLoad base content)
            :: processList safeLoad base rest) := by
  refine ⟨fun h1 => ?_, fun oi ho hfn => ?_, fun p rest => ?_⟩
  · simp [process_template, hh, h1, YVal.truthy]
  · cases oi with
    | nil => left; simp [process_template, hh, ho, YVal.truthy]
    | cons q oi' => right; simp [process_template, hh, ho, hfn, YVal.truthy]
  · simp [processList]

/-- Witness for C6: a header with only `title` (oracle `slNoOut`) is
skipped with the missing-output warning; a header whose `output` mapping
only has `author` (oracle `slNoFn`) is skipped with the missing-file_name
warning; in both cases a following well-formed file is still processed. -/
theorem process_template_skips_without_output_witness :
    (dictGet [("title", YVal.str "x")] "output" = none ∧
      process_template slNoOut "out" "---\nt\n---\nB" = .skippedNoOutput)
    ∧ (process_template slNoFn "out" "---\nt\n---\nB" = .skippedNoOutput
        ∨ process_template slNoFn "out" "---\nt\n---\nB" = .skippedNoFileName)
    ∧ processList slNoFn "out" [("a.md", "---\nt\n---\nB"), ("b.md", "x")]
        = [("a.md", .skippedNoFileName), ("b.md", .skippedNoOutput)] := by
  obtain ⟨h1, _, _⟩ :=
    process_template_skips_without_output slNoOut "out" "---\nt\n---\nB"
      [("title", YVal.str "x")] rfl
  obtain ⟨_, h2, h3⟩ :=
    process_template_skips_without_output slNoFn "out" "---\nt\n---\nB"
      [("output", YVal.map [("author", YVal.str "a")])] rfl
  refine ⟨⟨rfl, h1 rfl⟩,
          h2 [("author", YVal.str "a")] rfl rfl, ?_⟩
  rw [h3 "a.md" [("b.md", "x")]]
  decide

/-- Claim C7: the empty file list terminates cleanly with the
`No template files found` outcome; a nonempty list runs every file; the
decomposition law shows each file's outcome is recorded independently of
every other file's (a `raised` outcome — the caught, logged exception — is
a list entry, never control flow), and the result has one entry per file. -/
theorem process_all_isolates_failures
    (safeLoad : String → Except String YVal) (base : String) :
    process_all safeLoad base [] = .noTemplates
    ∧ (∀ files, files ≠ [] →
        process_all safeLoad base files = .ran (processList safeLoad base files))
    ∧ (∀ pre p c post,
        processList safeLoad base (pre ++ (p, c) :: post)
          = processList safeLoad base pre
            ++ (p, process_template safeLoad base c)
                :: processList safeLoad base post)
    ∧ (∀ files, (processList safeLoad base files).length = files.length) := by
  refine ⟨rfl, fun files hne => ?_, fun pre p c post => ?_, fun files => ?_⟩
  · simp [process_all, hne]
  · induction pre with
    | nil => simp [processList]
    | cons q pre ih => cases q; simp [processList, ih]
  · induction files with
    | nil => rfl
    | cons q files ih => cases q; simp [processList, ih]

/-- Witness for C7: the empty list gives the clean no-templates outcome;
a two-file batch whose first file raises (non-mapping header) still
records an outcome for the second, written file. -/
theorem process_all_isolates_failures_witness :
    process_all slMixed "out" [] = .noTemplates
    ∧ process_all slMixed "out"
        [("a.md", "---\nboom\n---\nB"), ("b.md", "---\nok: 1\n---\nHi")]
      = .ran [("a.md", .raised "AttributeError: frontmatter has no attribute get"),
              ("b.md", .wrote "out/ok.md" "---\noutput: \x7bfile_name: ok.md\x7d\n---\nHi")] := by
  obtain ⟨h1, h2, _, _⟩ := process_all_isolates_failures slMixed "out"
  refine ⟨h1, ?_⟩
  rw [h2 _ (by decide)]
  decide

/-! ## Dictionary lemmas for the variable resolver -/

/-- Overwriting key `k` does not disturb a lookup of a different key. -/
theorem find?_map_key_other (d : List (String × YVal)) (k : String) (v : YVal)
    (k' : String) (h : k' ≠ k) :
    (d.map fun p => if p.1 == k then (k, v) else p).find? (fun p => p.1 == k')
      = d.find? fun p => p.1 == k' := by
  have hkk' : (k == k') = false := beq_eq_false_iff_ne.mpr fun hk => h hk.symm
  induction d with
  | nil => rfl
  | cons p d ih =>
    by_cases hpk : (p.1 == k) = true
    · have hp1 : p.1 = k := by simpa using hpk
      have h2 : (p.1 == k') = false := by rw [hp1]; exact hkk'
      rw [List.map_cons, if_pos hpk]
      simp only [List.find?_cons, h2, hkk', ih]
    · rw [List.map_cons, if_neg hpk]
      simp only [List.find?_cons]
      cases hpk' : (p.1 == k') with
      | true => rfl
      | false => exact ih

/-- Appending the new entry `(k, v)` does not disturb a lookup of a
different key. -/
theorem find?_append_single_other (d : List (String × YVal)) (k : String)
    (v : YVal) (k' : String) (h : k' ≠ k) :
    (d ++ [(k, v)]).find? (fun p => p.1 == k')
      = d.find? fun p => p.1 == k' := by
  have hkk' : (k == k') = false := beq_eq_false_iff_ne.mpr fun hk => h hk.symm
  induction d with
  | nil => simp only [List.nil_append, List.find?_cons, hkk', List.find?]
  | cons p d ih =>
    rw [List.cons_append]
    simp only [List.find?_cons]
    cases hpk' : (p.1 == k') with
    | true => rfl
    | false => exact ih

/-- After overwriting key `k` (present in `d`), looking `k` up finds the
new value. -/
theorem find?_map_key_self (d : List (String × YVal)) (k : String) (v : YVal)
    (hany : (d.any fun p => p.1 == k) = true) :
    (d.map fun p => if p.1 == k then (k, v) else p).find? (fun p => p.1 == k)
      = some (k, v) := by
  induction d with
  | nil => simp at hany
  | cons p d ih =>
    by_cases hpk : (p.1 == k) = true
    · rw [List.map_cons, if_pos hpk]
      simp only [List.find?_cons, beq_self_eq_true]
    · simp only [List.any_cons, Bool.or_eq_true] at hany
      have hany' : (d.any fun p => p.1 == k) = true := by
        rcases hany with h1 | h2
        · exact absurd h1 hpk
        · exact h2
      have hpkf : (p.1 == k) = false := by simpa using hpk
      rw [List.map_cons, if_neg hpk]
      simp only [List.find?_cons, hpkf]
      exact ih hany'

/-- Appending the new entry `(k, v)` (key absent from `d`) makes a lookup
of `k` find it. -/
theorem find?_append_single_self (d : List (String × YVal)) (k : String)
    (v : YVal) (hany : (d.any fun p => p.1 == k) = false) :
    (d ++ [(k, v)]).find? (fun p => p.1 == k) = some (k, v) := by
  induction d with
  | nil => simp only [List.nil_append, List.find?_cons, beq_self_eq_true]
  | cons p d ih =>
    simp only [List.any_cons, Bool.or_eq_false_iff] at hany
    rw [List.cons_append]
    simp only [List.find?_cons, hany.1]
    exact ih hany.2

/-- Looking up `k` after `d[k] = v` yields `v`. -/
theorem dictGet_insert_self (d : List (String × YVal)) (k : String) (v : YVal) :
    dictGet (dictInsert d k v) k = some v := by
  unfold dictInsert
  by_cases hany : (d.any fun p => p.1 == k) = true
  · rw [if_pos hany]
    unfold dictGet
    rw [find?_map_key_self d k v hany]
    rfl
  · rw [if_neg hany]
    unfold dictGet
    rw [find?_append_single_self d k v (Bool.eq_false_iff.mpr hany)]
    rfl

/-- Looking up a different key `k'` after `d[k] = v` is unchanged. -/
theorem dictGet_insert_other (d : List (String × YVal)) (k : String) (v : YVal)
    (k' : String) (h : k' ≠ k) :
    dictGet (dictInsert d k v) k' = dictGet d k' := by
  unfold dictInsert
  by_cases hany : (d.any fun p => p.1 == k) = true
  · rw [if_pos hany]
    unfold dictGet
    rw [find?_map_key_other d k v k' h]
  · rw [if_neg hany]
    unfold dictGet
    rw [find?_append_single_other d k v k' h]

/-- The output loop never touches a key it does not contain. -/
theorem foldl_outStep_get_skip (k : String) (oi : List (String × YVal)) :
    ∀ acc, k ∉ oi.map Prod.fst →
      dictGet (oi.foldl outStep acc) k = dictGet acc k := by
  induction oi with
  | nil => intro acc _; rfl
  | cons p oi ih =>
    intro acc hk
    simp only [List.map_cons, List.mem_cons] at hk
    push_neg at hk
    rw [List.foldl_cons, ih _ hk.2]
    unfold outStep
    by_cases hfn : (p.1 == "file_name") = true
    · rw [if_pos hfn]
    · rw [if_neg hfn, dictGet_insert_other _ _ _ _ hk.1]

/-- The metadata loop never touches a key it does not contain. -/
theorem foldl_metaStep_get_skip (k : String) (md : List (String × YVal)) :
    ∀ acc, k ∉ md.map Prod.fst →
      dictGet (md.foldl metaStep acc) k = dictGet acc k := by
  induction md with
  | nil => intro acc _; rfl
  | cons p md ih =>
    intro acc hk
    simp only [List.map_cons, List.mem_cons] at hk
    push_neg at hk
    rw [List.foldl_cons, ih _ hk.2]
    unfold metaStep
    rw [dictGet_insert_other _ _ _ _ hk.1]

/-- The output loop binds every one of its keys other than `file_name` to
its own value (keys assumed distinct, as in a YAML mapping). -/
theorem foldl_outStep_get_mem (k : String) (v : YVal)
    (oi : List (String × YVal)) :
    ∀ acc, (oi.map Prod.fst).Nodup → k ≠ "file_name" →
      dictGet oi k = some v →
      dictGet (oi.foldl outStep acc) k = some v := by
  induction oi with
  | nil => intro acc _ _ hko; simp [dictGet, List.find?] at hko
  | cons p oi ih =>
    intro acc hnd hk hko
    have hnd2 : (p.1 :: oi.map Prod.fst).Nodup := by
      rw [List.map_cons] at hnd
      exact hnd
    have hnd' := List.nodup_cons.mp hnd2
    by_cases hpk : (p.1 == k) = true
    · have hp1 : p.1 = k := by simpa using hpk
      have hv : p.2 = v := by
        unfold dictGet at hko
        simp only [List.find?_cons, hpk] at hko
        simpa using hko
      have hknot : k ∉ oi.map Prod.fst := hp1 ▸ hnd'.1
      have hfn : (p.1 == "file_name") = false := by
        rw [hp1]
        exact beq_eq_false_iff_ne.mpr hk
      rw [List.foldl_cons, foldl_outStep_get_skip k oi _ hknot]
      unfold outStep
      rw [if_neg (by simp [hfn]), hp1, hv, dictGet_insert_self]
    · have hko' : dictGet oi k = some v := by
        unfold dictGet at hko ⊢
        simpa only [List.find?_cons, (by simpa using hpk : (p.1 == k) = false)]
          using hko
      exact ih _ hnd'.2 hk hko'

/-- The output loop never introduces a `file_name` binding. -/
theorem foldl_outStep_fn_none (oi : List (String × YVal)) :
    ∀ acc, dictGet acc "file_name" = none →
      dictGet (oi.foldl outStep acc) "file_name" = none := by
  induction oi with
  | nil => intro acc h; exact h
  | cons p oi ih =>
    intro acc h
    rw [List.foldl_cons]
    refine ih _ ?_
    unfold outStep
    by_cases hfn : (p.1 == "file_name") = true
    · rw [if_pos hfn]; exact h
    · rw [if_neg hfn,
        dictGet_insert_other _ _ _ _ fun he => (by simpa using hfn : p.1 ≠ "file_name") he.symm]
      exact h

/-- A key that `dictGet` does not find is not among the keys. -/
theorem dictGet_none_not_mem (d : List (String × YVal)) (k : String)
    (h : dictGet d k = none) : k ∉ d.map Prod.fst := by
  intro hmem
  rcases List.mem_map.mp hmem with ⟨p, hp, hp1⟩
  unfold dictGet at h
  rcases Option.map_eq_none'.mp h with hfind
  have := List.find?_eq_none.mp hfind p hp
  simp [hp1] at this

/-- Claim C1 counterexample: with metadata `{file_name: m}` and output
`{file_name: out.md, a: 2}`, the resolved mapping DOES contain the key
`file_name` (bound to metadata's value `m`): the code only excludes
`file_name` from the output loop, not from the metadata loop, so the
claim's "file_name never appears in the VariableMapping" fails, and the
key `file_name`, which appears in both mappings, is not bound to the
output value. -/
theorem collectVariables_file_name_counterexample :
    (dictGet (collectVariables [("file_name", YVal.str "m")]
        [("file_name", YVal.str "out.md"), ("a", YVal.str "2")]) "file_name").isSome
      = true
    ∧ (dictGet (collectVariables [("file_name", YVal.str "m")]
        [("file_name", YVal.str "out.md"), ("a", YVal.str "2")]) "file_name").map pyStr
      = some "m" := by
  exact ⟨rfl, rfl⟩

/-- Claim C1 (amended): in the resolved mapping, every key of the `output`
mapping other than `file_name` — in particular every such key that also
appears in `metadata` — is bound to the `output` value (output wins), and
`file_name` declared inside `output` is never added by the output loop:
whenever `metadata` itself has no `file_name` entry, the key `file_name`
is absent from the resolved mapping.  (A `file_name` entry in `metadata`
does enter the mapping, which is what the counterexample exhibits.) -/
theorem collectVariables_output_precedence
    (md oi : List (String × YVal)) (k : String) (v : YVal)
    (hnd : (oi.map Prod.fst).Nodup)
    (hk : k ≠ "file_name")
    (hko : dictGet oi k = some v) :
    dictGet (collectVariables md oi) k = some v
    ∧ (dictGet md "file_name" = none →
        dictGet (collectVariables md oi) "file_name" = none) := by
  constructor
  · exact foldl_outStep_get_mem k v oi _ hnd hk hko
  · intro hmd
    unfold collectVariables
    refine foldl_outStep_fn_none oi _ ?_
    rw [foldl_metaStep_get_skip _ md _ (dictGet_none_not_mem md _ hmd)]
    rfl

/-- Witness for C1 (amended) at a concrete header: metadata `{a: 1}`,
output `{file_name: out.md, a: 2}`: the mapping binds `a` to `2` (output
wins) and has no `file_name` binding. -/
theorem collectVariables_output_precedence_witness :
    ("a" : String) ≠ "file_name"
    ∧ dictGet (collectVariables [("a", YVal.str "1")]
        [("file_name", YVal.str "out.md"), ("a", YVal.str "2")]) "a"
        = some (YVal.str "2")
    ∧ dictGet (collectVariables [("a", YVal.str "1")]
        [("file_name", YVal.str "out.md"), ("a", YVal.str "2")]) "file_name"
        = none := by
  obtain ⟨h1, h2⟩ :=
    collectVariables_output_precedence [("a", YVal.str "1")]
      [("file_name", YVal.str "out.md"), ("a", YVal.str "2")] "a" (YVal.str "2")
      (by decide) (by decide) rfl
  exact ⟨by decide, h1, h2 rfl⟩

/-! ## Substitution lemmas -/

/-- The pattern `{{key}}` is never empty. -/
theorem varPattern_ne_nil (k : String) : varPattern k ≠ [] := by
  simp [varPattern]

/-- The fuel of `substKeyF` is irrelevant once it covers the input length
(for a nonempty pattern, every step consumes at least one character). -/
theorem substKeyF_irrel (pat rep : List Char) (hp : pat ≠ []) :
    ∀ (m : Nat) (cs : List Char) (n : Nat), cs.length ≤ m → cs.length ≤ n →
      substKeyF pat rep m cs = substKeyF pat rep n cs := by
  have hplen : 1 ≤ pat.length := List.length_pos.mpr hp
  intro m
  induction m with
  | zero =>
    intro cs n h0 _
    have : cs = [] := List.eq_nil_of_length_eq_zero (Nat.le_zero.mp h0)
    subst this
    cases n <;> rfl
  | succ m ih =>
    intro cs n hm hn
    cases cs with
    | nil => cases n <;> rfl
    | cons c rest =>
      cases n with
      | zero => simp at hn
      | succ n' =>
        simp only [List.length_cons, Nat.succ_le_succ_iff] at hm hn
        show substKeyF pat rep (m + 1) (c :: rest)
          = substKeyF pat rep (n' + 1) (c :: rest)
        unfold substKeyF
        by_cases hpre : pat.isPrefixOf (c :: rest) = true
        · rw [if_pos hpre, if_pos hpre]
          congr 1
          refine ih _ n' ?_ ?_
          · simp only [List.length_drop, List.length_cons]
            omega
          · simp only [List.length_drop, List.length_cons]
            omega
        · rw [if_neg hpre, if_neg hpre]
          congr 1
          exact ih rest n' hm hn

/-- `substKey` agrees with the fuelled worker at any sufficient fuel. -/
theorem substKey_eq_substKeyF (pat rep : List Char) (hp : pat ≠ [])
    (cs : List Char) (n : Nat) (hn : cs.length ≤ n) :
    substKey pat rep cs = substKeyF pat rep n cs :=
  substKeyF_irrel pat rep hp cs.length cs n le_rfl hn

/-- Recursion equation of `substKey` at a match. -/
theorem substKey_cons_match (pat rep : List Char) (hp : pat ≠ [])
    (c : Char) (rest : List Char) (h : pat.isPrefixOf (c :: rest) = true) :
    substKey pat rep (c :: rest)
      = rep ++ substKey pat rep ((c :: rest).drop pat.length) := by
  have hplen : 1 ≤ pat.length := List.length_pos.mpr hp
  have h1 : substKey pat rep (c :: rest)
      = substKeyF pat rep (rest.length + 1) (c :: rest) := by
    unfold substKey
    rw [List.length_cons]
  rw [h1]
  unfold substKeyF
  rw [if_pos h]
  congr 1
  refine (substKey_eq_substKeyF pat rep hp _ _ ?_).symm
  simp only [List.length_drop, List.length_cons]
  omega

/-- Recursion equation of `substKey` at a non-match. -/
theorem substKey_cons_nomatch (pat rep : List Char)
    (c : Char) (rest : List Char) (h : pat.isPrefixOf (c :: rest) = false) :
    substKey pat rep (c :: rest) = c :: substKey pat rep rest := by
  have h1 : substKey pat rep (c :: rest)
      = substKeyF pat rep (rest.length + 1) (c :: rest) := by
    unfold substKey
    rw [List.length_cons]
  rw [h1]
  unfold substKeyF
  rw [if_neg (by simp [h])]
  rfl

/-- When the pattern occurs nowhere in the text, substitution is the
identity (this is the no-op pass-through of unknown placeholders). -/
theorem substKey_no_occ (pat rep : List Char) :
    ∀ cs, ¬ pat <:+: cs → substKey pat rep cs = cs := by
  intro cs
  induction cs with
  | nil => intro _; rfl
  | cons c rest ih =>
    intro hno
    have hpre : pat.isPrefixOf (c :: rest) = false := by
      cases h : pat.isPrefixOf (c :: rest) with
      | false => rfl
      | true => exact absurd (List.isPrefixOf_iff_prefix.mp h).isInfix hno
    rw [substKey_cons_nomatch pat rep c rest hpre,
      ih fun hi => hno (List.infix_cons hi)]

/-- The segment condition survives dropping the head character. -/
theorem LeftmostSeg_tail (pat : List Char) (c : Char) (s : List Char)
    (h : LeftmostSeg pat (c :: s)) : LeftmostSeg pat s := by
  intro i hi hpre
  refine h (i + 1) (by simp only [List.length_cons]; omega) ?_
  rw [List.cons_append, List.drop_succ_cons]
  exact hpre

/-- A segment contains no occurrence of the (nonempty) pattern at all. -/
theorem LeftmostSeg_no_occurrence (pat s : List Char) (hp : pat ≠ [])
    (h : LeftmostSeg pat s) : ¬ pat <:+: s := by
  have hplen : 1 ≤ pat.length := List.length_pos.mpr hp
  rintro ⟨a, b, hab⟩
  subst hab
  refine h a.length ?_ ?_
  · simp only [List.length_append]
    omega
  · have hassoc : a ++ pat ++ b ++ pat = a ++ (pat ++ (b ++ pat)) := by
      simp [List.append_assoc]
    rw [hassoc, List.drop_left]
    exact List.prefix_append pat (b ++ pat)

/-- A prefix of an appended list that fits inside the first part is a
prefix of the first part. -/
theorem prefix_trim (p A X : List Char) (h : p <+: A ++ X)
    (hlen : p.length ≤ A.length) : p <+: A := by
  rw [List.prefix_iff_eq_take] at h ⊢
  rw [List.take_append_of_le_length hlen] at h
  exact h

/-- Scanning one segment: the leftmost match is the pattern occurrence
right after the segment, so the segment is copied, the replacement emitted,
and scanning resumes after the occurrence. -/
theorem substKey_seg (pat rep : List Char) (hp : pat ≠ []) :
    ∀ (s X : List Char), LeftmostSeg pat s →
      substKey pat rep (s ++ (pat ++ X)) = s ++ rep ++ substKey pat rep X := by
  intro s
  induction s with
  | nil =>
    intro X _
    cases pat with
    | nil => exact absurd rfl hp
    | cons p ps =>
      have hpre : (p :: ps).isPrefixOf ((p :: ps) ++ X) = true :=
        List.isPrefixOf_iff_prefix.mpr (List.prefix_append _ _)
      rw [List.nil_append]
      rw [show (p :: ps) ++ X = p :: (ps ++ X) from rfl] at hpre ⊢
      rw [substKey_cons_match (p :: ps) rep hp p (ps ++ X) hpre]
      rw [show p :: (ps ++ X) = (p :: ps) ++ X from rfl, List.drop_left]
      simp
  | cons c s ih =>
    intro X hlm
    have hnopre : pat.isPrefixOf (c :: (s ++ (pat ++ X))) = false := by
      cases hq : pat.isPrefixOf (c :: (s ++ (pat ++ X))) with
      | false => rfl
      | true =>
        exfalso
        have hpre := List.isPrefixOf_iff_prefix.mp hq
        have heq : c :: (s ++ (pat ++ X)) = ((c :: s) ++ pat) ++ X := by
          simp [List.append_assoc]
        rw [heq] at hpre
        have htrim : pat <+: (c :: s) ++ pat :=
          prefix_trim pat _ X hpre (by simp only [List.length_append]; omega)
        refine hlm 0 (by simp) ?_
        rw [List.drop_zero]
        exact htrim
    rw [List.cons_append, substKey_cons_nomatch pat rep c _ hnopre,
      ih X (LeftmostSeg_tail pat c s hlm)]
    simp [List.cons_append, List.append_assoc]

/-- Leftmost non-overlapping replacement over a canonical decomposition:
every occurrence of the pattern between the segments is replaced, and the
segments themselves (which contain no occurrence) are copied verbatim. -/
theorem substKey_joinSep (pat rep : List Char) (hp : pat ≠ [])
    (segs : List (List Char)) (hsegs : ∀ s ∈ segs, LeftmostSeg pat s) :
    substKey pat rep (joinSep pat segs) = joinSep rep segs := by
  induction segs with
  | nil => rfl
  | cons s rest ih =>
    cases rest with
    | nil =>
      exact substKey_no_occ pat rep s
        (LeftmostSeg_no_occurrence pat s hp (hsegs s (by simp)))
    | cons t rest' =>
      show substKey pat rep (s ++ pat ++ joinSep pat (t :: rest'))
          = s ++ rep ++ joinSep rep (t :: rest')
      rw [List.append_assoc]
      rw [substKey_seg pat rep hp s _ (hsegs s (by simp))]
      rw [ih fun u hu => hsegs u (by simp [hu])]

/-- A non-backslash head character of a replacement template is copied
verbatim. -/
theorem expandTemplateF_cons_not_backslash (pat : List Char) (n : Nat)
    (c : Char) (cs : List Char) (hc : c ≠ '\\') :
    expandTemplateF pat (n + 1) (c :: cs)
      = (fun r => c :: r) <$> expandTemplateF pat n cs := by
  simp only [expandTemplateF]
  rw [if_neg hc]

/-- A replacement template without backslashes expands to itself. -/
theorem expandTemplate_no_backslash (pat : List Char) (l : List Char)
    (hbs : '\\' ∉ l) : expandTemplate pat l = .ok l := by
  suffices h : ∀ (n : Nat) (l : List Char), l.length ≤ n → '\\' ∉ l →
      expandTemplateF pat n l = .ok l from h l.length l le_rfl hbs
  intro n
  induction n with
  | zero =>
    intro l h0 _
    have : l = [] := List.eq_nil_of_length_eq_zero (Nat.le_zero.mp h0)
    subst this
    rfl
  | succ n ih =>
    intro l hlen hb
    cases l with
    | nil => rfl
    | cons c cs =>
      have hc : c ≠ '\\' := fun h => hb (h ▸ List.mem_cons_self c cs)
      rw [expandTemplateF_cons_not_backslash pat n c cs hc,
        ih cs (by simpa using Nat.le_of_succ_le_succ hlen)
          fun h => hb (List.mem_cons_of_mem c h)]
      rfl

/-- An error accumulator passes through the whole substitution loop. -/
theorem foldl_replStep_error (vars : List (String × YVal)) (e : String) :
    vars.foldl replStep (.error e) = .error e := by
  induction vars with
  | nil => rfl
  | cons kv vars ih => rw [List.foldl_cons]; exact ih

/-- Unfolding one successful step of `replace_variables`. -/
theorem replace_variables_cons_ok (content : String) (k : String) (v : YVal)
    (vars : List (String × YVal)) (rep : List Char)
    (hexp : expandTemplate (varPattern k) (pyStr v).data = .ok rep) :
    replace_variables content ((k, v) :: vars)
      = replace_variables (String.mk (substKey (varPattern k) rep content.data))
          vars := by
  unfold replace_variables
  rw [List.foldl_cons]
  unfold replStep
  rw [hexp]

/-- A template error in one step aborts the remaining substitution loop
with that error (the exception `re.sub` raises for that key). -/
theorem replace_variables_cons_err (content : String) (k : String) (v : YVal)
    (vars : List (String × YVal)) (e : String)
    (hexp : expandTemplate (varPattern k) (pyStr v).data = .error e) :
    replace_variables content ((k, v) :: vars) = .error e := by
  unfold replace_variables
  rw [List.foldl_cons]
  unfold replStep
  rw [hexp]
  exact foldl_replStep_error vars e

/-- Substitution processes the mapping sequentially: the result on a
concatenated mapping is the second run applied to the first run's result. -/
theorem replace_variables_append (content : String)
    (vars1 vars2 : List (String × YVal)) :
    replace_variables content (vars1 ++ vars2)
      = match replace_variables content vars1 with
        | .ok r => replace_variables r vars2
        | .error e => .error e := by
  unfold replace_variables
  rw [List.foldl_append]
  cases h : vars1.foldl replStep (.ok content) with
  | ok r => rfl
  | error e => exact foldl_replStep_error vars2 e

/-- When no bound placeholder occurs in the text (and no value needs
template escaping), substitution is the identity. -/
theorem replace_variables_id (content : String)
    (vars : List (String × YVal))
    (h : ∀ kv ∈ vars, ¬ (varPattern kv.1) <:+: content.data
        ∧ '\\' ∉ (pyStr kv.2).data) :
    replace_variables content vars = .ok content := by
  induction vars with
  | nil => rfl
  | cons kv vars ih =>
    obtain ⟨hno, hbs⟩ := h kv (by simp)
    rw [show kv = (kv.1, kv.2) from rfl,
      replace_variables_cons_ok content kv.1 kv.2 vars (pyStr kv.2).data
        (expandTemplate_no_backslash _ _ hbs)]
    rw [substKey_no_occ _ _ content.data hno]
    exact ih fun q hq => h q (by simp [hq])

/-- Claim C2 counterexample: `str(value)` is NOT inserted literally —
`re.sub` interprets it as a replacement template.  For the mapping
`{a: "x\ny"}` (a four-character string with a literal backslash before
`n`), the body `{{a}}` becomes the three-character string with a real
newline, not the literal `str(value)`. -/
theorem replace_variables_backslash_counterexample :
    replace_variables "\x7b\x7ba\x7d\x7d" [("a", YVal.str "x\\ny")]
      = .ok "x\ny"
    ∧ ("x\ny" : String) ≠ "x\\ny" := by
  exact ⟨by decide, by decide⟩

/-- Claim C2 (amended): substitution for one key over a canonical
leftmost decomposition of the body replaces every occurrence of `{{k}}`
with `str(value)` — inserted literally provided `str(value)` contains no
backslash (otherwise `re.sub` template processing applies, as the
counterexample shows); and whenever no bound placeholder occurs in the
body at all — in particular for a body made only of `{{u}}` placeholders
with `u` absent from the mapping — the body is returned unchanged
verbatim (no error, no blank substitution). -/
theorem replace_variables_literal_substitution
    (k : String) (v : YVal) (segs : List (List Char))
    (hbs : '\\' ∉ (pyStr v).data)
    (hsegs : ∀ s ∈ segs, LeftmostSeg (varPattern k) s) :
    replace_variables (String.mk (joinSep (varPattern k) segs)) [(k, v)]
      = .ok (String.mk (joinSep (pyStr v).data segs))
    ∧ ∀ (content : String) (vars : List (String × YVal)),
        (∀ kv ∈ vars, ¬ (varPattern kv.1) <:+: content.data
            ∧ '\\' ∉ (pyStr kv.2).data) →
        replace_variables content vars = .ok content := by
  constructor
  · rw [replace_variables_cons_ok _ k v [] (pyStr v).data
      (expandTemplate_no_backslash _ _ hbs)]
    rw [show (String.mk (joinSep (varPattern k) segs)).data
        = joinSep (varPattern k) segs from rfl]
    rw [substKey_joinSep (varPattern k) (pyStr v).data (varPattern_ne_nil k)
      segs hsegs]
    rfl
  · exact replace_variables_id

/-- Witness for C2 (amended): `Hello, {{name}}!` with `name ↦ Alice`
yields `Hello, Alice!`; a body whose only placeholder key is unbound is
returned unchanged. -/
theorem replace_variables_literal_substitution_witness :
    replace_variables "Hello, \x7b\x7bname\x7d\x7d!" [("name", YVal.str "Alice")]
      = .ok "Hello, Alice!"
    ∧ replace_variables "Keep \x7b\x7bunknownKey\x7d\x7d here"
        [("name", YVal.str "Alice")]
      = .ok "Keep \x7b\x7bunknownKey\x7d\x7d here" := by
  obtain ⟨h1, h2⟩ :=
    replace_variables_literal_substitution "name" (YVal.str "Alice")
      ["Hello, ".data, "!".data] (by decide) (by decide)
  exact ⟨h1,
    h2 "Keep \x7b\x7bunknownKey\x7d\x7d here" [("name", YVal.str "Alice")]
      (by decide)⟩

/-- Claim C3 counterexample: a substituted value IS re-scanned for
placeholders of keys that come later in the mapping: with body `{{a}}`
and mapping `a ↦ "{{b}}", b ↦ "X"` (insertion order `a`, `b`), the text
`{{b}}` inserted by the `a`-pass is substituted by the `b`-pass, so the
result is `X`, not the claimed un-rescanned `{{b}}`. -/
theorem replace_variables_rescan_counterexample :
    replace_variables "\x7b\x7ba\x7d\x7d"
      [("a", YVal.str "\x7b\x7bb\x7d\x7d"), ("b", YVal.str "X")] = .ok "X"
    ∧ ("X" : String) ≠ "\x7b\x7bb\x7d\x7d" := by
  exact ⟨by decide, by decide⟩

/-- Claim C3 (amended): substitution runs one single pass per key,
sequentially in mapping (insertion) order — the run on a concatenated
mapping is the second run applied to the first run's result, so the
result is deterministic for a fixed mapping, and text inserted by an
earlier key is scanned by later keys' passes (the counterexample); within
one key's own pass the inserted text is never re-scanned: substituting a
key whose value is itself the placeholder text `{{u}}` (for any `u`,
including `u = k`) terminates and leaves every inserted `{{u}}` verbatim
in the output. -/
theorem replace_variables_sequential_single_pass :
    (∀ (content : String) (vars1 vars2 : List (String × YVal)),
      replace_variables content (vars1 ++ vars2)
        = match replace_variables content vars1 with
          | .ok r => replace_variables r vars2
          | .error e => .error e)
    ∧ ∀ (k u : String) (segs : List (List Char)),
        '\\' ∉ u.data →
        (∀ s ∈ segs, LeftmostSeg (varPattern k) s) →
        replace_variables (String.mk (joinSep (varPattern k) segs))
            [(k, YVal.str (String.mk (varPattern u)))]
          = .ok (String.mk (joinSep (varPattern u) segs)) := by
  constructor
  · exact replace_variables_append
  · intro k u segs hbs hsegs
    have hbs' : '\\' ∉ (pyStr (YVal.str (String.mk (varPattern u)))).data := by
      simp only [pyStr, varPattern]
      intro hmem
      exact hbs (by simpa using hmem)
    rw [replace_variables_cons_ok _ k _ [] (varPattern u)
      (expandTemplate_no_backslash _ _ hbs')]
    rw [show (String.mk (joinSep (varPattern k) segs)).data
        = joinSep (varPattern k) segs from rfl]
    rw [substKey_joinSep (varPattern k) (varPattern u) (varPattern_ne_nil k)
      segs hsegs]
    rfl

/-- Witness for C3 (amended): the sequential law evaluated on the
counterexample mapping, and the single-pass fact on a body `A {{k}} B`
whose value is the placeholder `{{u}}`: the inserted `{{u}}` survives. -/
theorem replace_variables_sequential_single_pass_witness :
    replace_variables "\x7b\x7ba\x7d\x7d"
        ([("a", YVal.str "Y")] ++ [("b", YVal.str "X")])
      = (match replace_variables "\x7b\x7ba\x7d\x7d" [("a", YVal.str "Y")] with
         | .ok r => replace_variables r [("b", YVal.str "X")]
         | .error e => .error e)
    ∧ replace_variables "A \x7b\x7bk\x7d\x7d B"
        [("k", YVal.str "\x7b\x7bu\x7d\x7d")]
      = .ok "A \x7b\x7bu\x7d\x7d B" := by
  obtain ⟨h1, h2⟩ := replace_variables_sequential_single_pass
  exact ⟨h1 "\x7b\x7ba\x7d\x7d" [("a", YVal.str "Y")] [("b", YVal.str "X")],
    h2 "k" "u" ["A ".data, " B".data] (by decide) (by decide)⟩

/-! ## Serialisation lemmas for the header dump -/

/-- Splitting at the first newline after a newline-free chunk. -/
theorem splitChar_append_nl (E R : List Char) (hE : '\n' ∉ E) :
    splitChar '\n' (E ++ '\n' :: R) = E :: splitChar '\n' R := by
  induction E with
  | nil => simp [splitChar]
  | cons c E ih =>
    have hc : c ≠ '\n' := fun h => hE (h ▸ List.mem_cons_self c E)
    have hE' : '\n' ∉ E := fun h => hE (List.mem_cons_of_mem c h)
    rw [List.cons_append]
    conv_lhs => unfold splitChar
    rw [if_neg hc, ih hE']

/-- `takeWhile` stops exactly at the first failing element. -/
theorem takeWhile_append_stop (p : Char → Bool) (A : List Char) (b : Char)
    (B : List Char) (hA : ∀ c ∈ A, p c = true) (hb : p b = false) :
    (A ++ b :: B).takeWhile p = A := by
  induction A with
  | nil => simp [List.takeWhile_cons, hb]
  | cons c A ih =>
    rw [List.cons_append, List.takeWhile_cons, hA c (by simp), if_pos rfl,
      ih fun d hd => hA d (by simp [hd])]

/-- The key of a dumped line is the key. -/
theorem keyOfLine_entry (kd vd : List Char) (hk : ':' ∉ kd) :
    keyOfLine (kd ++ ':' :: ' ' :: vd) = kd := by
  unfold keyOfLine
  refine takeWhile_append_stop _ kd ':' (' ' :: vd) ?_ (by decide)
  intro c hc
  have hcne : c ≠ ':' := fun h => hk (h ▸ hc)
  simpa using hcne

/-- The dumped entries split at newlines into one chunk per entry (in
order) plus the empty trailing chunk. -/
theorem splitChar_yamlEntries (fm : List (String × YVal))
    (hkeys : ∀ p ∈ fm, ('\n' ∉ p.1.data) ∧ ('\n' ∉ (yamlDumpValue p.2).data)) :
    splitChar '\n' (yamlEntries fm).data
      = fm.map (fun p => p.1.data ++ ':' :: ' ' :: (yamlDumpValue p.2).data)
        ++ [[]] := by
  induction fm with
  | nil => rfl
  | cons p rest ih =>
    obtain ⟨hk, hv⟩ := hkeys p (by simp)
    have hdata : (yamlEntries (p :: rest)).data
        = (p.1.data ++ ':' :: ' ' :: (yamlDumpValue p.2).data)
          ++ '\n' :: (yamlEntries rest).data := by
      show (p.1 ++ ": " ++ yamlDumpValue p.2 ++ "\n" ++ yamlEntries rest).data = _
      rw [String.data_append, String.data_append, String.data_append,
        String.data_append]
      simp [List.append_assoc]
    rw [hdata, splitChar_append_nl _ _ (by
      intro hmem
      rcases List.mem_append.mp hmem with h | h
      · exact hk h
      · simp only [List.mem_cons] at h
        rcases h with h | h | h
        · exact absurd h (by decide)
        · exact absurd h (by decide)
        · exact hv h)]
    rw [ih fun q hq => hkeys q (by simp [hq])]
    rfl

/-- Keys of the (modelled) dump, in order: exactly the keys of the header
mapping, in their declaration order. -/
theorem keysOfDump_yamlDump (fm : List (String × YVal)) (hfm : fm ≠ [])
    (hkeys : ∀ p ∈ fm, '\n' ∉ p.1.data ∧ ':' ∉ p.1.data
        ∧ '\n' ∉ (yamlDumpValue p.2).data) :
    keysOfDump (yamlDump fm) = fm.map Prod.fst := by
  unfold yamlDump
  rw [if_neg (by simpa using hfm)]
  unfold keysOfDump
  rw [splitChar_yamlEntries fm fun p hp => ⟨(hkeys p hp).1, (hkeys p hp).2.2⟩]
  rw [List.dropLast_concat, List.map_map]
  refine List.map_congr_left fun p hp => ?_
  show String.mk (keyOfLine (p.1.data ++ ':' :: ' ' :: (yamlDumpValue p.2).data))
    = p.1
  rw [keyOfLine_entry _ _ (hkeys p hp).2.1]

/-- Claim C5: on the success path, the written document is exactly the
framing `---\n<serialized-header>---\n<rendered-body>`, where the
serialized header is the dump of the unmodified parsed header mapping
(`yaml.dump(frontmatter, sort_keys=False)`, modelled by `yamlDump`), and
the dump lists the keys in the mapping's declaration order (no
reordering; the hygiene hypotheses say keys contain no newline or colon
and scalar renderings contain no newline, so the lines can be read back
unambiguously). -/
theorem process_template_output_framing
    (safeLoad : String → Except String YVal) (base content : String)
    (fm oi md : List (String × YVal)) (fn body rbody : String) (w : Bool)
    (hparse : parse_frontmatter safeLoad content = ⟨.map fm, body, w⟩)
    (hout : dictGet fm "output" = some (.map oi))
    (hoine : oi ≠ [])
    (hfn : dictGet oi "file_name" = some (.str fn))
    (hfne : fn ≠ "")
    (hmd : (dictGet fm "metadata").getD (.map []) = .map md)
    (hrep : replace_variables body (collectVariables md oi) = .ok rbody)
    (hfm : fm ≠ [])
    (hkeys : ∀ p ∈ fm, '\n' ∉ p.1.data ∧ ':' ∉ p.1.data
        ∧ '\n' ∉ (yamlDumpValue p.2).data) :
    process_template safeLoad base content
      = .wrote (base ++ "/" ++ fn) ("---\n" ++ yamlDump fm ++ "---\n" ++ rbody)
    ∧ keysOfDump (yamlDump fm) = fm.map Prod.fst := by
  refine ⟨?_, keysOfDump_yamlDump fm hfm hkeys⟩
  have htr : (YVal.map oi).truthy = true := by
    simp [YVal.truthy, hoine]
  have hfntr : (YVal.str fn).truthy = true := by
    simp [YVal.truthy, hfne]
  simp only [process_template, hparse, hout, Option.getD_some, htr,
    Bool.true_eq_false, if_false, hfn, hfntr, hmd, hrep]

/-- Witness for C5: the end-to-end example — header
`output: {file_name: a_out.md}`, `metadata: {name: Alice}`, body
`Hello, {{name}}!` — is written at `out/a_out.md` with the exact framing
and the header keys in declaration order (`output` before `metadata`). -/
theorem process_template_output_framing_witness :
    process_template slDoc "out"
        "---\nd\n---\nHello, \x7b\x7bname\x7d\x7d!"
      = .wrote ("out" ++ "/" ++ "a_out.md")
          ("---\n"
            ++ yamlDump [("output", YVal.map [("file_name", YVal.str "a_out.md")]),
                         ("metadata", YVal.map [("name", YVal.str "Alice")])]
            ++ "---\n" ++ "Hello, Alice!")
    ∧ keysOfDump (yamlDump
        [("output", YVal.map [("file_name", YVal.str "a_out.md")]),
         ("metadata", YVal.map [("name", YVal.str "Alice")])])
      = ["output", "metadata"] := by
  obtain ⟨h1, h2⟩ :=
    process_template_output_framing slDoc "out"
      "---\nd\n---\nHello, \x7b\x7bname\x7d\x7d!"
      [("output", YVal.map [("file_name", YVal.str "a_out.md")]),
       ("metadata", YVal.map [("name", YVal.str "Alice")])]
      [("file_name", YVal.str "a_out.md")]
      [("name", YVal.str "Alice")]
      "a_out.md" "Hello, \x7b\x7bname\x7d\x7d!" "Hello, Alice!" false
      rfl rfl (List.cons_ne_nil _ _) rfl (by decide) rfl (by decide)
      (List.cons_ne_nil _ _) (by decide)
  exact ⟨h1, h2⟩

/-! ## Inversion lemmas for the frontmatter matcher (claim C9) -/

/-- Every candidate remainder of `\s*\n` sits right after a newline: the
consumed prefix ends with `\n`. -/
theorem wsNlCands_mem (r : List Char) :
    ∀ u, r ∈ wsNlCands u → ∃ w, u = w ++ '\n' :: r := by
  intro u
  induction u with
  | nil => intro h; simp [wsNlCands] at h
  | cons c cs ih =>
    intro hmem
    unfold wsNlCands at hmem
    by_cases hsp : isPySpace c = true
    · rw [if_pos hsp] at hmem
      by_cases hnl : c = '\n'
      · rw [if_pos hnl] at hmem
        rcases List.mem_append.mp hmem with h | h
        · obtain ⟨w, hw⟩ := ih h
          exact ⟨c :: w, by rw [hw, List.cons_append]⟩
        · obtain rfl : r = cs := by simpa using h
          exact ⟨[], by rw [hnl, List.nil_append]⟩
      · rw [if_neg hnl] at hmem
        obtain ⟨w, hw⟩ := ih hmem
        exact ⟨c :: w, by rw [hw, List.cons_append]⟩
    · rw [if_neg hsp] at hmem
      simp at hmem

/-- The head of a list, when present, is a member. -/
theorem head?_mem {α : Type} (l : List α) (a : α) (h : l.head? = some a) :
    a ∈ l := by
  cases l with
  | nil => simp at h
  | cons x xs =>
    obtain rfl : a = x := by simpa using h.symm
    exact List.mem_cons_self _ _

/-- Inversion of `tryClose`: a successful close starts with the literal
`\n---` and the greedy `\s*\n` succeeds on the remainder. -/
theorem tryClose_some (r g2 : List Char) (h : tryClose r = some g2) :
    ∃ t, r = '\n' :: '-' :: '-' :: '-' :: t ∧ g2 ∈ wsNlCands t := by
  unfold tryClose at h
  split at h
  · rename_i t
    exact ⟨t, rfl, head?_mem _ _ h⟩
  · exact absurd h (by simp)

/-- Inversion of the lazy scan: group 1, the literal `\n---`, and a
successful `\s*\n` decompose the scanned remainder. -/
theorem scanClose_some (g1 g2 : List Char) :
    ∀ r, scanClose r = some (g1, g2) →
      ∃ t, r = g1 ++ '\n' :: '-' :: '-' :: '-' :: t ∧ g2 ∈ wsNlCands t := by
  intro r
  induction r generalizing g1 with
  | nil => intro h; simp [scanClose] at h
  | cons c rest ih =>
    intro h
    unfold scanClose at h
    cases htc : tryClose (c :: rest) with
    | some g2' =>
      rw [htc] at h
      obtain ⟨rfl, rfl⟩ : g1 = [] ∧ g2' = g2 := by
        constructor <;> [skip; skip] <;> simp_all
      obtain ⟨t, ht, hmem⟩ := tryClose_some _ _ htc
      exact ⟨t, by rw [ht, List.nil_append], hmem⟩
    | none =>
      rw [htc] at h
      obtain ⟨⟨p1, p2⟩, hp, hpe⟩ := Option.map_eq_some'.mp h
      obtain ⟨rfl, rfl⟩ : g1 = c :: p1 ∧ g2 = p2 := by
        constructor <;> simp_all
      obtain ⟨t, ht, hmem⟩ := ih p1 hp
      exact ⟨t, by rw [ht, List.cons_append], hmem⟩

/-- Inversion of the candidate loop: a match comes from some candidate. -/
theorem firstClose_some (p : List Char × List Char) :
    ∀ rs, firstClose rs = some p → ∃ r ∈ rs, scanClose r = some p := by
  intro rs
  induction rs with
  | nil => intro h; simp [firstClose] at h
  | cons r rs ih =>
    intro h
    unfold firstClose at h
    cases hsc : scanClose r with
    | some q =>
      rw [hsc] at h
      exact ⟨r, by simp, by rw [hsc]; simpa using h⟩
    | none =>
      rw [hsc] at h
      obtain ⟨r', hr', hsc'⟩ := ih h
      exact ⟨r', by simp [hr'], hsc'⟩

/-- A suffix of `X ++ "\n---"` that starts with a newline reaches back
into `X`: it is some suffix of `X` followed by the whole `"\n---"`. -/
theorem suffix_nlC (X g2 : List Char)
    (h : ('\n' :: g2) <:+ X ++ ['\n', '-', '-', '-']) :
    ∃ B, B <:+ X ∧ '\n' :: g2 = B ++ ['\n', '-', '-', '-'] := by
  obtain ⟨u, hu⟩ := h
  by_cases hlen : u.length ≤ X.length
  · have hux : u <+: X := prefix_trim u X _ ⟨'\n' :: g2, hu⟩ hlen
    obtain ⟨w, hw⟩ := hux
    refine ⟨w, ⟨u, hw⟩, ?_⟩
    have hcan : u ++ ('\n' :: g2) = u ++ (w ++ ['\n', '-', '-', '-']) := by
      rw [hu, ← hw, List.append_assoc]
    exact List.append_cancel_left hcan
  · push_neg at hlen
    have hxpre : X <+: u :=
      prefix_trim X u ('\n' :: g2) ⟨['\n', '-', '-', '-'], hu.symm⟩
        (Nat.le_of_lt hlen)
    obtain ⟨w, hw⟩ := hxpre
    have hwc : w ++ '\n' :: g2 = ['\n', '-', '-', '-'] := by
      have hcan : X ++ (w ++ '\n' :: g2) = X ++ ['\n', '-', '-', '-'] := by
        rw [← List.append_assoc, hw, hu]
      exact List.append_cancel_left hcan
    cases w with
    | nil => exact ⟨[], List.nil_suffix, by simpa using hwc⟩
    | cons a w' =>
      exfalso
      rw [List.cons_append] at hwc
      injection hwc with h1 h2
      have hmem : '\n' ∈ w' ++ '\n' :: g2 :=
        List.mem_append.mpr (Or.inr (List.mem_cons_self _ _))
      rw [h2] at hmem
      simp at hmem

/-- Behind a leading newline, a four-part decomposition of the tail
exhibits the middle part as an infix. -/
theorem infix_of_cons_decomp (Z w g1 C' w2 B : List Char)
    (h : '\n' :: Z = w ++ '\n' :: g1 ++ C' ++ w2 ++ B) :
    ∃ A T, Z = A ++ C' ++ T := by
  cases w with
  | nil =>
    rw [List.nil_append, List.cons_append, List.cons_append] at h
    injection h with _ h2
    exact ⟨g1, w2 ++ B, by rw [h2]; simp [List.append_assoc]⟩
  | cons wc w' =>
    rw [List.cons_append] at h
    injection h with _ h2
    exact ⟨w' ++ '\n' :: g1, w2 ++ B, by rw [h2]; simp [List.append_assoc]⟩

/-- Claim C9 (core): when the body of the frontmatter contains no interior
`\n---`, a document consisting of the opening delimiter, the frontmatter
text and a final `---` WITHOUT a trailing newline has no match: the second
`---\s*\n` of the pattern needs a newline after the closing delimiter, and
there is none. -/
theorem matchFrontmatter_trailing_close (fm : List Char)
    (hno : ¬ ['\n', '-', '-', '-'] <:+: fm) :
    matchFrontmatter
      ('-' :: '-' :: '-' :: '\n' :: (fm ++ ['\n', '-', '-', '-'])) = none := by
  cases hm : matchFrontmatter
      ('-' :: '-' :: '-' :: '\n' :: (fm ++ ['\n', '-', '-', '-'])) with
  | none => rfl
  | some pr =>
    exfalso
    obtain ⟨g1, g2⟩ := pr
    have hm' : firstClose (wsNlCands ('\n' :: (fm ++ ['\n', '-', '-', '-'])))
        = some (g1, g2) := hm
    obtain ⟨r, hrmem, hscan⟩ := firstClose_some _ _ hm'
    obtain ⟨w, hw⟩ := wsNlCands_mem r _ hrmem
    obtain ⟨t, hts, hmem2⟩ := scanClose_some g1 g2 r hscan
    obtain ⟨w2, hw2⟩ := wsNlCands_mem g2 t hmem2
    have hbig : '\n' :: (fm ++ ['\n', '-', '-', '-'])
        = (w ++ '\n' :: g1 ++ ['\n', '-', '-', '-'] ++ w2) ++ ('\n' :: g2) := by
      rw [hw, hts, hw2]
      simp [List.cons_append, List.append_assoc]
    have hsuf : ('\n' :: g2) <:+ ('\n' :: fm) ++ ['\n', '-', '-', '-'] := by
      refine ⟨w ++ '\n' :: g1 ++ ['\n', '-', '-', '-'] ++ w2, ?_⟩
      rw [← hbig]
      simp [List.cons_append, List.append_assoc]
    obtain ⟨B, _, hBeq⟩ := suffix_nlC ('\n' :: fm) g2 hsuf
    have hbig2 : ('\n' :: fm) ++ ['\n', '-', '-', '-']
        = ((w ++ '\n' :: g1 ++ ['\n', '-', '-', '-'] ++ w2) ++ B)
            ++ ['\n', '-', '-', '-'] := by
      have hstep : '\n' :: (fm ++ ['\n', '-', '-', '-'])
          = (w ++ '\n' :: g1 ++ ['\n', '-', '-', '-'] ++ w2)
              ++ (B ++ ['\n', '-', '-', '-']) := by
        rw [hbig, hBeq]
      rw [← List.append_assoc] at hstep
      rw [← hstep]
      simp [List.cons_append, List.append_assoc]
    have hX : '\n' :: fm
        = (w ++ '\n' :: g1 ++ ['\n', '-', '-', '-'] ++ w2) ++ B :=
      List.append_cancel_right hbig2
    obtain ⟨A, T, hAT⟩ := infix_of_cons_decomp fm w g1 ['\n', '-', '-', '-'] w2 B
      hX
    exact hno ⟨A, T, by rw [hAT]⟩

/-- Claim C9: the header block is recognized only when the closing `---`
line is terminated by a newline: for every document of the form
`---\n<fm>\n---` — ending in the closing delimiter with no trailing
newline, the frontmatter text containing no interior `\n---` close — the
parser finds no header and returns an empty StructuredHeader with the
entire content as Body. -/
theorem parse_frontmatter_requires_newline_after_close
    (safeLoad : String → Except String YVal) (fm : String)
    (hno : ¬ ['\n', '-', '-', '-'] <:+: fm.data) :
    parse_frontmatter safeLoad ("---\n" ++ fm ++ "\n---")
      = ⟨.map [], "---\n" ++ fm ++ "\n---", false⟩ := by
  have hdata : ("---\n" ++ fm ++ "\n---").data
      = '-' :: '-' :: '-' :: '\n' :: (fm.data ++ ['\n', '-', '-', '-']) := by
    rw [String.data_append, String.data_append]
    rfl
  have hm : matchFrontmatter
      ('-' :: '-' :: '-' :: '\n' :: (fm.data ++ ['\n', '-', '-', '-'])) = none :=
    matchFrontmatter_trailing_close fm.data hno
  simp [parse_frontmatter, hdata, hm]

/-- Witness for C9: the document `---\ntitle: hello\n---` (no trailing
newline) yields no header and comes back whole as the body. -/
theorem parse_frontmatter_requires_newline_after_close_witness :
    (¬ ['\n', '-', '-', '-'] <:+: ("title: hello" : String).data)
    ∧ parse_frontmatter slNull ("---\n" ++ "title: hello" ++ "\n---")
        = ⟨.map [], "---\n" ++ "title: hello" ++ "\n---", false⟩ :=
  ⟨by decide,
   parse_frontmatter_requires_newline_after_close slNull "title: hello"
     (by decide)⟩
